import Mathlib

/-!
Verification development for the koolstof toolkit (VINDTA logfile parsing,
manifest matching, blank extraction, and LI-COR infrared helpers).

The Python source is shallowly embedded: text lines become `List Char`,
numpy floats become `ℚ`, pandas missing values (`nan` used as an index)
become `Option Nat`, and Python exceptions become `Except` errors.
Each definition mirrors one function (or one regex) of the source.
-/

namespace Koolstof

/-- Errors raised while parsing a logfile, mirroring the Python exceptions:
`indexError n` is an out-of-range list access `logf[n]`;
`datetimeIndexError i` is `re_datetime.findall(line)[0]` on an empty result
at run-start line `i`; `bottleAssert n` is the failed assertion
naming logfile line `n` (`'Logfile line n: bottle name not found!'`);
`floatError` is `float('')` on an empty regex group. -/
inductive ParseErr where
  | indexError (n : Nat)
  | datetimeIndexError (i : Nat)
  | bottleAssert (n : Nat)
  | floatError
deriving DecidableEq, Repr

instance {ε α : Type} [DecidableEq ε] [DecidableEq α] : DecidableEq (Except ε α) :=
  fun a b =>
    match a, b with
    | .error e1, .error e2 =>
      if h : e1 = e2 then isTrue (by rw [h]) else isFalse (by intro hc; cases hc; exact h rfl)
    | .ok v1, .ok v2 =>
      if h : v1 = v2 then isTrue (by rw [h]) else isFalse (by intro hc; cases hc; exact h rfl)
    | .error _, .ok _ => isFalse (by intro hc; cases hc)
    | .ok _, .error _ => isFalse (by intro hc; cases hc)

/-- Python `str.strip()` whitespace test (the ASCII whitespace characters). -/
def isPySpace (c : Char) : Bool :=
  c = ' ' || c = '\t' || c = '\n' || c = '\r' || c = '\x0b' || c = '\x0c'

/-- Python `s.strip()`: drop leading and trailing whitespace. -/
def pyStrip (s : List Char) : List Char :=
  ((s.dropWhile isPySpace).reverse.dropWhile isPySpace).reverse

/-- Value of a (nonempty) string of decimal digits, as `int`/`float` read it. -/
def digitsToNat (ds : List Char) : Nat :=
  ds.foldl (fun n c => 10 * n + (c.toNat - 48)) 0

/-- Python `float(s)` on a regex group captured by `\d*`: the group holds
only digits; on the empty string `float` raises `ValueError`. -/
def pyFloat (ds : List Char) : Except ParseErr ℚ :=
  if ds = [] then .error .floatError else .ok ((digitsToNat ds : Nat) : ℚ)

/-- Decimal digits of `n`, most significant first (Python `'{}'.format(n)`).
Implemented with explicit fuel to keep the kernel able to evaluate it. -/
def natCharsAux : Nat → Nat → List Char → List Char
  | 0, _, acc => acc
  | fuel + 1, m, acc =>
    if m < 10 then Char.ofNat (m + 48) :: acc
    else natCharsAux fuel (m / 10) (Char.ofNat (m % 10 + 48) :: acc)

/-- Decimal representation of a natural number as characters. -/
def natChars (n : Nat) : List Char := natCharsAux (n + 1) n []

/-- Python `logf[n]`: list access that raises `IndexError` out of range. -/
def pyGetLine (logf : List (List Char)) (n : Nat) : Except ParseErr (List Char) :=
  match logf.get? n with
  | some l => .ok l
  | none => .error (.indexError n)

/-- Python `xs[-1]` on a list of floats: `IndexError` when empty. -/
def pyLast (xs : List ℚ) : Except ParseErr ℚ :=
  match xs.getLast? with
  | some x => .ok x
  | none => .error (.indexError 0)

/-- The character class `[^\t]`. -/
def neTab (c : Char) : Bool := c ≠ '\t'

/-- Regex fragment `\t([^\t]*)\t` anchored at the start of `t`: a tab, a
greedy capture of non-tab characters, then a tab.  Returns the capture. -/
def matchTabNameTab (t : List Char) : Option (List Char) :=
  match t with
  | '\t' :: u =>
    match u.dropWhile neTab with
    | '\t' :: _ => some (u.takeWhile neTab)
    | _ => none
  | _ => none

/-- `re_bottle = re.compile(r'(bottle)?\t([^\t]*)\t')`, `.match` at position 0,
returning group 2: the optional literal `bottle` is tried first (greedy),
falling back to the empty alternative on failure. -/
def matchBottle (s : List Char) : Option (List Char) :=
  if "bottle".data.isPrefixOf s then
    (matchTabNameTab (s.drop 6)).orElse (fun _ => matchTabNameTab s)
  else matchTabNameTab s

/-- `re_crm = re.compile(r'CRM\t([^\t]*)\t')`, `.match` at position 0,
returning group 1. -/
def matchCrm (s : List Char) : Option (List Char) :=
  if "CRM".data.isPrefixOf s then matchTabNameTab (s.drop 3) else none

/-- `re_increments = re.compile(r'(\d*)\t(\d*)\t(\d*)\t')`, `.match` at
position 0: three greedy digit groups separated and followed by tabs
(the rest of the line is ignored, `.match` is not `fullmatch`). -/
def matchIncrements (s : List Char) : Option (List Char × List Char × List Char) :=
  let d1 := s.takeWhile Char.isDigit
  match s.dropWhile Char.isDigit with
  | '\t' :: r1 =>
    let d2 := r1.takeWhile Char.isDigit
    match r1.dropWhile Char.isDigit with
    | '\t' :: r2 =>
      let d3 := r2.takeWhile Char.isDigit
      match r2.dropWhile Char.isDigit with
      | '\t' :: _ => some (d1, d2, d3)
      | _ => none
    | _ => none
  | _ => none

/-- `re_method = re.compile(r'(' + r'|'.join(methods) + r')\.mth run started ')`,
`.match` at position 0 for literal method names: the first alternative whose
text followed by `.mth run started ` begins the line; returns group 1. -/
def matchMethod (methods : List (List Char)) (line : List Char) : Option (List Char) :=
  methods.find? (fun m => (m ++ ".mth run started ".data).isPrefixOf line)

/-- Exactly two digits at the start of `s`; returns their value and the rest. -/
def twoDigits (s : List Char) : Option (Nat × List Char) :=
  match s with
  | c1 :: c2 :: rest =>
    if c1.isDigit && c2.isDigit then some (digitsToNat [c1, c2], rest) else none
  | _ => none

/-- The pattern `(\d{2})/(\d{2})/(\d{2})  (\d{2}):(\d{2})` anchored at the
start of `s`, yielding the five two-digit groups `(MM, DD, YY, HH, Min)`. -/
def matchDatetimeDigits (s : List Char) : Option (Nat × Nat × Nat × Nat × Nat) :=
  match twoDigits s with
  | none => none
  | some (mo, r1) =>
    match r1 with
    | '/' :: r2 =>
      match twoDigits r2 with
      | none => none
      | some (d, r3) =>
        match r3 with
        | '/' :: r4 =>
          match twoDigits r4 with
          | none => none
          | some (y, r5) =>
            match r5 with
            | ' ' :: ' ' :: r6 =>
              match twoDigits r6 with
              | none => none
              | some (h, r7) =>
                match r7 with
                | ':' :: r8 =>
                  match twoDigits r8 with
                  | none => none
                  | some (mi, _) => some (mo, d, y, h, mi)
                | _ => none
            | _ => none
        | _ => none
    | _ => none

/-- `re_datetime.findall(line)` with
`re_datetime = re.compile(r'started (\d{2})/(\d{2})/(\d{2})  (\d{2}):(\d{2})')`:
the leftmost match of `started ` followed by the five groups, scanning the
line left to right. -/
def findDatetime : List Char → Option (Nat × Nat × Nat × Nat × Nat)
  | [] => none
  | c :: rest =>
    match
      (if "started ".data.isPrefixOf (c :: rest) then
        matchDatetimeDigits ((c :: rest).drop 8)
      else none) with
    | some g => some g
    | none => findDatetime rest

/-- The calendar timestamp `np.datetime64('20YY-MM-DDTHH:MM')` built from the
five matched groups `(MM, DD, YY, HH, Min)`, modelled as the tuple
`(2000 + YY, MM, DD, HH, Min)` (minute resolution; equality of tuples mirrors
equality of the datetimes). -/
def dtStamp (g : Nat × Nat × Nat × Nat × Nat) : Nat × Nat × Nat × Nat × Nat :=
  (2000 + g.2.2.1, g.1, g.2.1, g.2.2.2.1, g.2.2.2.2)

/-- Sample-name derivation for the line `next` following run-start line `i`:
try `re_bottle`, then `re_crm`, then the exact literal `other` (yielding
`'other_{}'.format(i+1)`); otherwise `lbot` stays the int `0` and
`assert(type(lbot) == str)` fails, naming logfile line `i+1`. -/
def deriveBottle (i : Nat) (next : List Char) : Except ParseErr (List Char) :=
  match matchBottle next with
  | some name => .ok name
  | none =>
    match matchCrm next with
    | some name => .ok name
    | none =>
      if next = "other".data then .ok ("other_".data ++ natChars (i + 1))
      else .error (.bottleAssert (i + 1))

/-- The per-run coulometer table `jdict`: three parallel float arrays
`minutes`, `counts`, `increments`, seeded with `[0.0]` each. -/
structure IncTable where
  minutes : List ℚ
  counts : List ℚ
  increments : List ℚ
deriving DecidableEq, Repr, Inhabited

/-- The seeded table `{'minutes': [0.0], 'counts': [0.0], 'increments': [0.0]}`. -/
def seedTable : IncTable := ⟨[0], [0], [0]⟩

/-- The increment-collection loop `while re_increments.match(logf[i+j].strip())`
over the still-unread lines `suffix = logf[i+j:]`: append the three parsed
floats and advance `j` while the (stripped) line matches; running out of
lines while the pattern still matches is the `IndexError` of the list access
`logf[i+j]` in the loop condition.  Returns the final table and final `j`. -/
def incScan (i : Nat) : List (List Char) → Nat → IncTable →
    Except ParseErr (IncTable × Nat)
  | [], j, _acc => .error (.indexError (i + j))
  | lj :: rest, j, acc =>
    match matchIncrements (pyStrip lj) with
    | none => .ok (acc, j)
    | some (d1, d2, d3) =>
      match pyFloat d1, pyFloat d2, pyFloat d3 with
      | .ok m, .ok c, .ok inc =>
        incScan i rest (j + 1)
          ⟨acc.minutes ++ [m], acc.counts ++ [c], acc.increments ++ [inc]⟩
      | .error e, _, _ => .error e
      | .ok _, .error e, _ => .error e
      | .ok _, .ok _, .error e => .error e

/-- The increment loop started at offset `j` after run-start line `i`. -/
def incLoop (logf : List (List Char)) (i : Nat) (j : Nat) (acc : IncTable) :
    Except ParseErr (IncTable × Nat) :=
  incScan i (logf.drop (i + j)) j acc

/-- One parsed run: the row appended to `logdf` for a matching run-start line. -/
structure RunRecord where
  logfileline : Nat
  analysisdate : Nat × Nat × Nat × Nat × Nat
  bottle : List Char
  table : IncTable
  totalcounts : ℚ
  runtime : ℚ
  method : List Char
deriving DecidableEq, Repr, Inhabited

/-- The body of the `for i, line in enumerate(logf)` loop of `read_logfile`
for one line: `ok none` when the line is not a run start, otherwise the
parsed `RunRecord` (or the first Python exception raised while parsing it).
The order of the failure points follows the source: datetime extraction,
the access `logf[i+1]`, sample-name derivation, the increment loop, and
`jdict['counts'][-1]`. -/
def handleLine (methods : List (List Char)) (logf : List (List Char)) (i : Nat)
    (line : List Char) : Except ParseErr (Option RunRecord) :=
  match matchMethod methods line with
  | none => .ok none
  | some mth =>
    match findDatetime line with
    | none => .error (.datetimeIndexError i)
    | some g =>
      match pyGetLine logf (i + 1) with
      | .error e => .error e
      | .ok next =>
        match deriveBottle i next with
        | .error e => .error e
        | .ok bot =>
          match incLoop logf i 4 seedTable with
          | .error e => .error e
          | .ok (t, jfin) =>
            match pyLast t.counts with
            | .error e => .error e
            | .ok tc =>
              .ok (some ⟨i, dtStamp g, bot, t, tc, (jfin : ℚ) - 4, mth⟩)

/-- The `for i, line in enumerate(logf)` loop of `read_logfile`, iterated over
the remaining `(index, line)` pairs: one `RunRecord` per run-start line in
file order, aborting at the first Python exception. -/
def readRuns (methods : List (List Char)) (logf : List (List Char)) :
    List (Nat × List Char) → Except ParseErr (List RunRecord)
  | [] => .ok []
  | (i, line) :: rest =>
    match handleLine methods logf i line with
    | .error e => .error e
    | .ok none => readRuns methods logf rest
    | .ok (some rec) =>
      match readRuns methods logf rest with
      | .error e => .error e
      | .ok rs => .ok (rec :: rs)

/-- The default `methods=['3C standard']` argument of `read_logfile`. -/
def defaultMethods : List (List Char) := ["3C standard".data]

/-- `read_logfile`: parse all runs of a logfile given as its list of lines. -/
def read_logfile (logf : List (List Char)) (methods : List (List Char)) :
    Except ParseErr (List RunRecord) :=
  readRuns methods logf logf.enum

/-! ## Manifest–logfile matcher and blank extractor (`logfile2dbs`, `get_blanks`) -/

/-- One manifest (`.dbs`) row as the matcher sees it: the `bottle` string,
the `analysisdate` timestamp, and the pandas row label `x.name` (the
positional iloc quoted in the assertion message). -/
structure DbsRow where
  bottle : List Char
  analysisdate : Nat × Nat × Nat × Nat × Nat
  name : Nat
deriving DecidableEq, Repr, Inhabited

/-- The fatal matcher error: the assertion
`'More than one (or no) name/date matches found between dbs and logfile! @ dbs iloc x.name'`. -/
inductive MatchErr where
  | matchCountNotOne (dbsIloc : Nat)
deriving DecidableEq, Repr

/-- `np.where((x.bottle == logfile.bottle) & (x.analysisdate == logfile.analysisdate))[0]`:
the positions of the logfile run records whose bottle and analysisdate both
equal the manifest row's. -/
def matchIdx (x : DbsRow) (logfile : List RunRecord) : List Nat :=
  ((logfile.enum.filter
    (fun p => p.2.bottle = x.bottle ∧ p.2.analysisdate = x.analysisdate)).map
    (fun p => p.1))

/-- `_logfile2dbs(x, logfile)`: if the bottle occurs in the logfile, assert
exactly one (bottle, analysisdate) match and return its position `xix[0]`;
otherwise `xix = np.nan`, modelled as `none`. -/
def logfile2dbs_row (x : DbsRow) (logfile : List RunRecord) :
    Except MatchErr (Option Nat) :=
  if x.bottle ∈ logfile.map (fun r => r.bottle) then
    match matchIdx x logfile with
    | [k] => .ok (some k)
    | _ => .error (.matchCountNotOne x.name)
  else .ok none

/-- `logfile2dbs(dbs, logfile)`: the association column, one entry per
manifest row (the first failed assertion aborts the whole `apply`). -/
def logfile2dbs (dbs : List DbsRow) (logfile : List RunRecord) :
    Except MatchErr (List (DbsRow × Option Nat)) :=
  dbs.mapM (fun x => (logfile2dbs_row x logfile).map (fun ix => (x, ix)))

/-- A manifest row carrying the matcher's `logfile_iloc` column
(`none` is the `np.nan` of a no-match row). -/
structure DbsRowM where
  row : DbsRow
  logfile_iloc : Option Nat
deriving DecidableEq, Repr, Inhabited

/-- The Python exceptions of `_get_blanks`: `usefromNonpositive` is the
assertion `usefrom > 0`; `ilocNonInteger` is the `TypeError` raised by
`logfile.iloc[x.logfile_iloc]` when `logfile_iloc` is `np.nan` (pandas
positional indexing requires an integer and `nan` is not one);
`ilocOutOfRange k` is positional indexing past the end of the logfile. -/
inductive BlankErr where
  | usefromNonpositive
  | ilocNonInteger
  | ilocOutOfRange (k : Nat)
deriving DecidableEq, Repr

/-- `np.mean` of a float list: `nan` (modelled `none`) when empty. -/
def npMean (xs : List ℚ) : Option ℚ :=
  if xs.isEmpty then none else some (xs.sum / xs.length)

/-- `lft['increments'][L]` where `L = lft['minutes'] >= usefrom`: the
`increments` entries of the rows whose `minutes` is at least the cutoff. -/
def selIncrements (t : IncTable) (usefrom : ℚ) : List ℚ :=
  ((t.minutes.zip t.increments).filter (fun p => p.1 ≥ usefrom)).map (fun p => p.2)

/-- `_get_blanks(x, logfile, usefrom)`: assert `usefrom > 0`, fetch the run's
table with `logfile.iloc[x.logfile_iloc]`, and return
`np.mean(lft['increments'][lft['minutes'] >= usefrom])`. -/
def get_blanks_row (x : DbsRowM) (logfile : List RunRecord) (usefrom : ℚ) :
    Except BlankErr (Option ℚ) :=
  if usefrom > 0 then
    match x.logfile_iloc with
    | none => .error .ilocNonInteger
    | some k =>
      match logfile.get? k with
      | none => .error (.ilocOutOfRange k)
      | some r => .ok (npMean (selIncrements r.table usefrom))
  else .error .usefromNonpositive

/-- `get_blanks(dbs, logfile, usefrom)`: the blank column, one value per
manifest row (the first exception aborts the whole `apply`). -/
def get_blanks (dbs : List DbsRowM) (logfile : List RunRecord) (usefrom : ℚ) :
    Except BlankErr (List (DbsRowM × Option ℚ)) :=
  dbs.mapM (fun x => (get_blanks_row x logfile usefrom).map (fun b => (x, b)))

/-! ## LI-COR infrared helpers (`get_licor_resolution`, `get_licor_samples`) -/

/-- `pd.Series.unique()`: the distinct values in order of first appearance. -/
def pyUnique (l : List ℚ) : List ℚ :=
  l.foldl (fun acc x => if x ∈ acc then acc else acc ++ [x]) []

/-- `ldu = licor.datenum.unique()[1:-1]`: the interior distinct numeric
timestamps (first and last distinct values excluded). -/
def ldu (l : List ℚ) : List ℚ := ((pyUnique l).drop 1).dropLast

/-- `lda = licor[np.isin(licor.datenum, ldu)].datenum`: the timestamps of the
rows carrying an interior distinct value. -/
def lda (l : List ℚ) : List ℚ := l.filter (fun x => x ∈ ldu l)

/-- `resolution = int(len(lda) / len(ldu))` (in Hz); exact division when the
sampling rate is an integer, as the source assumes. -/
def licorResolution (l : List ℚ) : Nat := (lda l).length / (ldu l).length

/-- `np.linspace(a, b, n)` with its default inclusive endpoint. -/
def pyLinspace (a b : ℚ) (n : Nat) : List ℚ :=
  match n with
  | 0 => []
  | 1 => [a]
  | _ => (List.range n).map (fun (j : Nat) => a + (j : ℚ) * (b - a) / ((n : ℚ) - 1))

/-- `second_fractions = np.linspace(0, 1 - timestep, resolution)`. -/
def secondFractions (r : Nat) : List ℚ := pyLinspace 0 (1 - 1 / (r : ℚ)) r

/-- Python slicing `xs[-s:]` (note `xs[-0:]` is the whole list). -/
def pySliceLast {α : Type} (xs : List α) (s : Nat) : List α :=
  if s = 0 then xs else xs.drop (xs.length - s)

/-- `np.tile(xs, k)`: `k` copies of `xs` end to end. -/
def npTile {α : Type} (xs : List α) : Nat → List α
  | 0 => []
  | k + 1 => xs ++ npTile xs k

/-- `np.where(l == v)[0]`: all positions holding the value `v`. -/
def npWhereEq (l : List ℚ) (v : ℚ) : List Nat :=
  (l.enum.filter (fun p => p.2 = v)).map (fun p => p.1)

/-- Errors of `get_licor_resolution`: `zeroDivision` is `len(lda)/len(ldu)`
or `1/resolution` with a zero divisor; `indexOut` is `np.where(...)[0][k]` on
an empty result; `broadcast` is the numpy length-mismatch `ValueError` when
the assembled `second_fractions` does not line up with the table. -/
inductive LicorErr where
  | zeroDivision
  | indexOut
  | broadcast
deriving DecidableEq, Repr

/-- The `second_fractions` array assembled by `get_licor_resolution`:
`second_fractions_start` (`second_fractions[-start_iloc:]`),
`second_fractions_middle` (`np.tile(second_fractions, len(ldu))`), and
`second_fractions_end` (`second_fractions[:tail_length]`), end to end. -/
def licorOffsets (l : List ℚ) (start_iloc tail_length : Nat) : List ℚ :=
  pySliceLast (secondFractions (licorResolution l)) start_iloc ++
    npTile (secondFractions (licorResolution l)) (ldu l).length ++
    (secondFractions (licorResolution l)).take tail_length

/-- `get_licor_resolution(licor)` on the numeric-timestamp column: infer the
sampling rate from the interior duplicate timestamps and add the assembled
sub-second offsets (in day units, `/(60*60*24)`) to every timestamp.
`start_iloc = np.where(licor.datenum == ldu[0])[0][0]`,
`tail_iloc = np.where(licor.datenum == ldu[-1])[0][-1] + 1`, and the numpy
column assignment requires the offsets to line up with the table. -/
def get_licor_resolution (l : List ℚ) : Except LicorErr (List ℚ) :=
  if (ldu l).length = 0 then .error .zeroDivision
  else if licorResolution l = 0 then .error .zeroDivision
  else
    match (ldu l).head? with
    | none => .error .indexOut
    | some v0 =>
      match (npWhereEq l v0).head? with
      | none => .error .indexOut
      | some start_iloc =>
        match (ldu l).getLast? with
        | none => .error .indexOut
        | some vlast =>
          match (npWhereEq l vlast).getLast? with
          | none => .error .indexOut
          | some lastIx =>
            if (licorOffsets l start_iloc (l.length - (lastIx + 1))).length = l.length then
              .ok (List.zipWith (fun t o => t + o / 86400) l
                (licorOffsets l start_iloc (l.length - (lastIx + 1))))
            else .error .broadcast

/-- `get_licor_samples(licor, dbs)` on the numeric-timestamp columns: start
with `dbs_ix = np.nan` everywhere; for each manifest row in order overwrite
`dbs_ix` with its index on every gas-analyzer row whose timestamp has reached
it; finally drop the rows still `nan`.  Returns (timestamp, dbs index) pairs. -/
def get_licor_samples (licor : List ℚ) (dbs : List ℚ) : List (ℚ × Nat) :=
  let tagged := dbs.enum.foldl
    (fun acc p => acc.map (fun q => if p.2 ≤ q.1 then (q.1, some p.1) else q))
    (licor.map (fun t => (t, (none : Option Nat))))
  tagged.filterMap (fun q =>
    match q.2 with
    | some ix => some (q.1, ix)
    | none => none)

/-- The final `dbs_ix` tag of a single gas-analyzer timestamp `t`: the fold
of the manifest rows, each overwriting the tag when `t` has reached it. -/
def rowTag (dbs : List ℚ) (t : ℚ) : Option Nat :=
  dbs.enum.foldl (fun acc p => if p.2 ≤ t then some p.1 else acc) none

/-! ## Concrete inputs used by witnesses and counterexamples -/

/-- A well-formed run-start line, `3C standard.mth run started 01/02/03  04:05`. -/
def lineStart : List Char := "3C standard.mth run started 01/02/03  04:05".data

/-- A line matching neither the run-start nor the increments pattern. -/
def lineJunk : List Char := "x".data

/-- A logfile whose single run has one increment line with
`minutes 2, counts 10, increments 7`. -/
def cfC1 : List (List Char) :=
  [lineStart, "bottle\tA\t".data, lineJunk, lineJunk, "2\t10\t7\tE".data, lineJunk]

/-- A logfile whose run-start line is at index 41 and whose bare `other`
line is at index 42. -/
def cfC3 : List (List Char) :=
  List.replicate 41 lineJunk ++ [lineStart, "other".data, lineJunk, lineJunk, lineJunk]

/-- A logfile whose sample-name line `"\t\t"` matches the bottle pattern with
an empty captured name. -/
def cfC4 : List (List Char) :=
  [lineStart, "\t\t".data, lineJunk, lineJunk, lineJunk]

/-- A logfile whose sample-name line matches none of the three forms. -/
def cfC4b : List (List Char) := [lineStart, "garbage".data]

/-- A logfile whose single run is followed by zero increment lines. -/
def cfC7 : List (List Char) :=
  [lineStart, "bottle\tB\t".data, lineJunk, lineJunk, lineJunk]

/-- A logfile whose run-start marker is the last line of the file. -/
def cfC10 : List (List Char) := [lineStart]

/-- Whether a parse result is an out-of-range line-index error at or past
line `n` (and hence not a returned table of runs). -/
def isOOBIndexErrorB (n : Nat) (r : Except ParseErr (List RunRecord)) : Bool :=
  match r with
  | .error (.indexError m) => n ≤ m
  | _ => false

/-- The run record parsed from `cfC1`. -/
def recC1 : RunRecord :=
  ⟨0, (2003, 1, 2, 4, 5), "A".data, ⟨[0, 2], [0, 10], [0, 7]⟩, 10,
    ((5 : Nat) : ℚ) - 4, "3C standard".data⟩

/-- The run record parsed from `cfC3`. -/
def recC3 : RunRecord :=
  ⟨41, (2003, 1, 2, 4, 5), "other_42".data, seedTable, 0,
    ((4 : Nat) : ℚ) - 4, "3C standard".data⟩

/-- The run record parsed from `cfC4`: note the empty bottle name. -/
def recC4 : RunRecord :=
  ⟨0, (2003, 1, 2, 4, 5), [], seedTable, 0, ((4 : Nat) : ℚ) - 4, "3C standard".data⟩

/-- The run record parsed from `cfC7`. -/
def recC7 : RunRecord :=
  ⟨0, (2003, 1, 2, 4, 5), "B".data, seedTable, 0, ((4 : Nat) : ℚ) - 4, "3C standard".data⟩

/-- The increment table of the spec's Blank Extractor example:
minutes `[0,2,4,6,8,10]`, increments `[0,1,2,3,4,5]`. -/
def tblC6 : IncTable := ⟨[0, 2, 4, 6, 8, 10], [0, 0, 0, 0, 0, 0], [0, 1, 2, 3, 4, 5]⟩

/-- A concrete run record carrying `tblC6` under bottle `A`. -/
def recC6 : RunRecord :=
  ⟨0, (2020, 1, 2, 3, 4), "A".data, tblC6, 5, 5, "3C standard".data⟩

/-- A second concrete run record, bottle `B`, same timestamp. -/
def recB : RunRecord :=
  ⟨9, (2020, 1, 2, 3, 4), "B".data, seedTable, 0, 0, "3C standard".data⟩

/-- The LI-COR timestamp column of the spec's resolution example: one head
row, two interior seconds of five rows each, one tail row. -/
def licorC8 : List ℚ := [10, 11, 11, 11, 11, 11, 12, 12, 12, 12, 12, 13]

/-- A small gas-analyzer timestamp column for the segmenter example (the
value 4 is exactly equal to the second manifest timestamp). -/
def licorC9 : List ℚ := [1, 3, 4, 5]

/-- A small manifest timestamp column for the segmenter example. -/
def dbsC9 : List ℚ := [2, 4]

/-! ## Parser lemmas -/

theorem incScan_ok_facts :
    ∀ (suffix : List (List Char)) (i j : Nat) (acc t : IncTable) (jf : Nat),
      incScan i suffix j acc = .ok (t, jf) →
      (acc.minutes.head? = some 0 → t.minutes.head? = some 0) ∧
      (acc.counts.head? = some 0 → t.counts.head? = some 0) ∧
      (acc.increments.head? = some 0 → t.increments.head? = some 0) ∧
      j ≤ jf ∧ (jf = j → t = acc) := by
  intro suffix
  induction suffix with
  | nil => intro i j acc t jf h; simp [incScan] at h
  | cons lj rest ih =>
    intro i j acc t jf h
    simp only [incScan] at h
    split at h
    · simp only [Except.ok.injEq, Prod.mk.injEq] at h
      obtain ⟨ht, hj⟩ := h
      subst ht; subst hj
      exact ⟨fun h => h, fun h => h, fun h => h, Nat.le_refl j, fun _ => rfl⟩
    · split at h
      · rename_i m c inc _ _ _
        obtain ⟨p1, p2, p3, p4, _⟩ := ih i (j + 1)
          ⟨acc.minutes ++ [m], acc.counts ++ [c], acc.increments ++ [inc]⟩ t jf h
        refine ⟨?_, ?_, ?_, by omega, by omega⟩
        · intro hh
          exact p1 (by simp [List.head?_append, hh, Option.or_some])
        · intro hh
          exact p2 (by simp [List.head?_append, hh, Option.or_some])
        · intro hh
          exact p3 (by simp [List.head?_append, hh, Option.or_some])
      · simp at h
      · simp at h
      · simp at h

theorem incScan_allmatch :
    ∀ (suffix : List (List Char)) (i j : Nat) (acc : IncTable),
      (∀ lj ∈ suffix, ∃ g, matchIncrements (pyStrip lj) = some g ∧
        g.1 ≠ [] ∧ g.2.1 ≠ [] ∧ g.2.2 ≠ []) →
      incScan i suffix j acc = .error (.indexError (i + j + suffix.length)) := by
  intro suffix
  induction suffix with
  | nil => intro i j acc _; simp [incScan]
  | cons lj rest ih =>
    intro i j acc hall
    obtain ⟨⟨d1, d2, d3⟩, hmi, h1, h2, h3⟩ := hall lj (List.mem_cons_self lj rest)
    simp only [incScan, hmi, pyFloat, if_neg h1, if_neg h2, if_neg h3]
    have harith : i + (j + 1) + rest.length = i + j + (lj :: rest).length := by
      simp [List.length_cons]; omega
    rw [← harith]
    exact ih i (j + 1) _ (fun l hl => hall l (List.mem_cons_of_mem lj hl))

theorem handleLine_ok_some_facts (methods logf : List (List Char)) (i : Nat)
    (line : List Char) (rec : RunRecord)
    (h : handleLine methods logf i line = .ok (some rec)) :
    rec.logfileline = i ∧
    rec.table.counts.getLast? = some rec.totalcounts ∧
    rec.table.minutes.head? = some 0 ∧ rec.table.counts.head? = some 0 ∧
    rec.table.increments.head? = some 0 ∧
    (∀ l4, logf.get? (i + 4) = some l4 → matchIncrements (pyStrip l4) = none →
      rec.table = seedTable) := by
  simp only [handleLine] at h
  split at h
  · simp at h
  · split at h
    · simp at h
    · split at h
      · simp at h
      · split at h
        · simp at h
        · split at h
          · simp at h
          · rename_i mth g next _ _ bot _ tj t jf hscan
            split at h
            · simp at h
            · rename_i tc hlast
              simp only [Except.ok.injEq, Option.some.injEq] at h
              subst h
              obtain ⟨q1, q2, q3, _, _⟩ :=
                incScan_ok_facts (logf.drop (i + 4)) i 4 seedTable t jf hscan
              refine ⟨rfl, ?_, q1 rfl, q2 rfl, q3 rfl, ?_⟩
              · simp only [pyLast] at hlast
                cases hgl : t.counts.getLast? with
                | none => rw [hgl] at hlast; simp at hlast
                | some c => rw [hgl] at hlast; simp at hlast; rw [hlast]
              · intro l4 h4 hnone
                have h4' : i + 4 < logf.length := by
                  rw [List.get?_eq_getElem?] at h4
                  rcases List.getElem?_eq_some.mp h4 with ⟨hh, _⟩
                  exact hh
                have hdrop : logf.drop (i + 4) = l4 :: logf.drop (i + 4 + 1) := by
                  rw [List.drop_eq_getElem_cons h4']
                  rw [List.get?_eq_getElem?] at h4
                  rcases List.getElem?_eq_some.mp h4 with ⟨hh, hv⟩
                  rw [hv]
                rw [incLoop, hdrop] at hscan
                simp only [incScan, hnone] at hscan
                simp only [Except.ok.injEq, Prod.mk.injEq] at hscan
                exact hscan.1.symm

theorem readRuns_ok_mem (methods logf : List (List Char)) :
    ∀ (ps : List (Nat × List Char)) (recs : List RunRecord),
      readRuns methods logf ps = .ok recs →
      ∀ rec ∈ recs, ∃ p, p ∈ ps ∧ handleLine methods logf p.1 p.2 = .ok (some rec) := by
  intro ps
  induction ps with
  | nil =>
    intro recs h rec hrec
    simp only [readRuns, Except.ok.injEq] at h
    subst h; simp at hrec
  | cons p rest ih =>
    intro recs h rec hrec
    obtain ⟨i, line⟩ := p
    simp only [readRuns] at h
    cases hh : handleLine methods logf i line with
    | error e => rw [hh] at h; simp at h
    | ok v =>
      rw [hh] at h
      cases v with
      | none =>
        obtain ⟨q, hq, hq2⟩ := ih recs h rec hrec
        exact ⟨q, List.mem_cons_of_mem _ hq, hq2⟩
      | some r =>
        cases hrest : readRuns methods logf rest with
        | error e => rw [hrest] at h; simp at h
        | ok rs =>
          rw [hrest] at h
          simp only [Except.ok.injEq] at h
          subst h
          rcases List.mem_cons.mp hrec with hrec | hrec
          · subst hrec; exact ⟨(i, line), List.mem_cons_self _ _, hh⟩
          · obtain ⟨q, hq, hq2⟩ := ih rs hrest rec hrec
            exact ⟨q, List.mem_cons_of_mem _ hq, hq2⟩

theorem readRuns_append_error (methods logf : List (List Char)) :
    ∀ (ps1 : List (Nat × List Char)) (i : Nat) (line : List Char)
      (ps2 : List (Nat × List Char)) (e : ParseErr),
      (∀ p ∈ ps1, ∃ v, handleLine methods logf p.1 p.2 = .ok v) →
      handleLine methods logf i line = .error e →
      readRuns methods logf (ps1 ++ (i, line) :: ps2) = .error e := by
  intro ps1
  induction ps1 with
  | nil =>
    intro i line ps2 e _ herr
    simp only [List.nil_append, readRuns, herr]
  | cons p rest ih =>
    intro i line ps2 e hok herr
    obtain ⟨k, l'⟩ := p
    obtain ⟨v, hv⟩ := hok (k, l') (List.mem_cons_self _ _)
    have htail := ih i line ps2 e
      (fun q hq => hok q (List.mem_cons_of_mem _ hq)) herr
    simp only [List.append_eq] at htail
    simp only [List.cons_append, readRuns, hv]
    cases v with
    | none => simpa using htail
    | some r => simp only [List.append_eq, htail]

theorem enum_split (logf : List (List Char)) (i : Nat) (line : List Char)
    (h : logf.get? i = some line) :
    logf.enum = (logf.take i).enum ++ (i, line) :: List.enumFrom (i + 1) (logf.drop (i + 1)) := by
  have hi : i < logf.length := by
    rcases List.get?_eq_some.mp h with ⟨hh, _⟩
    exact hh
  have hlen : (logf.take i).length = i := by
    rw [List.length_take]; omega
  have hdrop : logf.drop i = line :: logf.drop (i + 1) := by
    rw [List.drop_eq_getElem_cons hi]
    rw [List.get?_eq_getElem?] at h
    rcases List.getElem?_eq_some.mp h with ⟨hh, hv⟩
    rw [hv]
  have hsplit := (List.take_append_drop i logf).symm
  calc logf.enum = (logf.take i ++ logf.drop i).enum := by rw [← hsplit]
    _ = List.enumFrom 0 (logf.take i ++ logf.drop i) := rfl
    _ = List.enumFrom 0 (logf.take i) ++ List.enumFrom (0 + (logf.take i).length) (logf.drop i) :=
        List.enumFrom_append _ _ _
    _ = (logf.take i).enum ++ (i, line) :: List.enumFrom (i + 1) (logf.drop (i + 1)) := by
        rw [hlen, hdrop]
        simp [List.enumFrom, List.enum]

theorem mem_enum_take (logf : List (List Char)) (i : Nat) (p : Nat × List Char)
    (hp : p ∈ (logf.take i).enum) : p.1 < i ∧ logf.get? p.1 = some p.2 := by
  obtain ⟨a, b⟩ := p
  have hp' : (a, b) ∈ List.enumFrom 0 (logf.take i) := hp
  obtain ⟨-, hlt, hv⟩ := List.mem_enumFrom hp'
  simp only [Nat.zero_add, Nat.sub_zero] at hlt hv
  have hlt' : a < (logf.take i).length := hlt
  have hlti : a < i := by
    rw [List.length_take] at hlt'; omega
  have hltl : a < logf.length := by
    rw [List.length_take] at hlt'; omega
  rw [List.getElem_take] at hv
  refine ⟨hlti, ?_⟩
  rw [List.get?_eq_getElem?]
  exact List.getElem?_eq_some.mpr ⟨hltl, hv.symm⟩

theorem read_logfile_error_at (methods logf : List (List Char)) (i : Nat)
    (line : List Char) (e : ParseErr)
    (hi : logf.get? i = some line)
    (hclean : ∀ k l', k < i → logf.get? k = some l' →
      ∃ v, handleLine methods logf k l' = .ok v)
    (herr : handleLine methods logf i line = .error e) :
    read_logfile logf methods = .error e := by
  rw [read_logfile, enum_split logf i line hi]
  apply readRuns_append_error
  · intro p hp
    obtain ⟨hlt, hget⟩ := mem_enum_take logf i p hp
    exact hclean p.1 p.2 hlt hget
  · exact herr

theorem read_logfile_ok_mem (methods logf : List (List Char)) (recs : List RunRecord)
    (h : read_logfile logf methods = .ok recs) :
    ∀ rec ∈ recs, ∃ i line, logf.get? i = some line ∧
      handleLine methods logf i line = .ok (some rec) := by
  intro rec hrec
  obtain ⟨⟨i, line⟩, hp, hh⟩ := readRuns_ok_mem methods logf logf.enum recs h rec hrec
  refine ⟨i, line, ?_, hh⟩
  have hp' : (i, line) ∈ List.enumFrom 0 logf := hp
  obtain ⟨-, hlt, hv⟩ := List.mem_enumFrom hp'
  simp only [Nat.zero_add, Nat.sub_zero] at hlt hv
  rw [List.get?_eq_getElem?]
  exact List.getElem?_eq_some.mpr ⟨hlt, hv.symm⟩

/-! ## Sample-name pattern lemmas -/

theorem takeWhile_neTab : ∀ (name rest : List Char), '\t' ∉ name →
    (name ++ '\t' :: rest).takeWhile neTab = name := by
  intro name rest h
  induction name with
  | nil => simp [List.takeWhile, neTab]
  | cons c cs ih =>
    have hc : c ≠ '\t' := fun hh => h (hh ▸ List.mem_cons_self c cs)
    have hcs : '\t' ∉ cs := fun hh => h (List.mem_cons_of_mem c hh)
    have hnc : neTab c = true := by simp [neTab, hc]
    rw [List.cons_append, List.takeWhile_cons, if_pos hnc, ih hcs]

theorem dropWhile_neTab : ∀ (name rest : List Char), '\t' ∉ name →
    (name ++ '\t' :: rest).dropWhile neTab = '\t' :: rest := by
  intro name rest h
  induction name with
  | nil => simp [List.dropWhile, neTab]
  | cons c cs ih =>
    have hc : c ≠ '\t' := fun hh => h (hh ▸ List.mem_cons_self c cs)
    have hcs : '\t' ∉ cs := fun hh => h (List.mem_cons_of_mem c hh)
    rw [List.cons_append, List.dropWhile_cons, if_pos (by simp [neTab, hc]), ih hcs]

theorem matchTabNameTab_spec (name rest : List Char) (h : '\t' ∉ name) :
    matchTabNameTab ('\t' :: (name ++ '\t' :: rest)) = some name := by
  show (match (name ++ '\t' :: rest).dropWhile neTab with
    | '\t' :: _ => some ((name ++ '\t' :: rest).takeWhile neTab)
    | _ => none) = some name
  rw [dropWhile_neTab name rest h, takeWhile_neTab name rest h]
  rfl

theorem matchBottle_bottle (name rest : List Char) (h : '\t' ∉ name) :
    matchBottle ("bottle".data ++ '\t' :: (name ++ '\t' :: rest)) = some name := by
  have hpre : "bottle".data.isPrefixOf
      ("bottle".data ++ '\t' :: (name ++ '\t' :: rest)) = true :=
    List.isPrefixOf_iff_prefix.mpr (List.prefix_append _ _)
  have hdrop : ("bottle".data ++ '\t' :: (name ++ '\t' :: rest)).drop 6 =
      '\t' :: (name ++ '\t' :: rest) := by
    rw [show (6 : Nat) = ("bottle".data).length from rfl, List.drop_left]
  rw [matchBottle, if_pos hpre, hdrop, matchTabNameTab_spec name rest h]
  rfl

theorem matchCrm_spec (name rest : List Char) (h : '\t' ∉ name) :
    matchCrm ("CRM".data ++ '\t' :: (name ++ '\t' :: rest)) = some name := by
  have hpre : "CRM".data.isPrefixOf ("CRM".data ++ '\t' :: (name ++ '\t' :: rest)) = true :=
    List.isPrefixOf_iff_prefix.mpr (List.prefix_append _ _)
  have hdrop : ("CRM".data ++ '\t' :: (name ++ '\t' :: rest)).drop 3 =
      '\t' :: (name ++ '\t' :: rest) := by
    rw [show (3 : Nat) = ("CRM".data).length from rfl, List.drop_left]
  rw [matchCrm, if_pos hpre, hdrop, matchTabNameTab_spec name rest h]

theorem matchBottle_on_crm (u : List Char) :
    matchBottle ("CRM".data ++ '\t' :: u) = none := rfl

/-! ## Claim theorems -/

/-- C1 (counterexample): on `cfC1` the parser returns a run whose
`totalcounts` is `10`, the `counts` value of the last Increment Table row,
while the `increments` value of that row is `7`: the claim that total counts
equals the last `increments` value (and not the last `counts` value) is
false on this input. -/
theorem c1_counterexample :
    read_logfile cfC1 defaultMethods = .ok [recC1] ∧
    recC1.totalcounts = 10 ∧
    recC1.table.counts.getLast? = some 10 ∧
    recC1.table.increments.getLast? = some 7 ∧
    ((10 : ℚ) = 7 → False) :=
  ⟨rfl, rfl, rfl, rfl, by decide⟩

/-- C1 (amended): for every successfully parsed run, the total counts scalar
equals the `counts` value of the last row of its Increment Table (the code
reads `jdict['counts'][-1]`, not `increments`). -/
theorem c1_totalcounts_is_last_counts (methods logf : List (List Char))
    (recs : List RunRecord) (h : read_logfile logf methods = .ok recs) :
    ∀ rec ∈ recs, rec.table.counts.getLast? = some rec.totalcounts := by
  intro rec hrec
  obtain ⟨i, line, _, hh⟩ := read_logfile_ok_mem methods logf recs h rec hrec
  exact (handleLine_ok_some_facts methods logf i line rec hh).2.1

/-- C1 (witness): the amended claim evaluated on the concrete file `cfC1`. -/
theorem c1_witness :
    read_logfile cfC1 defaultMethods = .ok [recC1] ∧
    recC1.table.counts.getLast? = some recC1.totalcounts :=
  ⟨rfl, c1_totalcounts_is_last_counts defaultMethods cfC1 [recC1] rfl recC1
    (List.mem_singleton.mpr rfl)⟩

/-- C3 (counterexample): in `cfC3` the bare `other` line sits at index 42
(the run-start line is at index 41), and the parsed sample identifier is
`other_42`, not `other_43` as the claim states. -/
theorem c3_counterexample :
    read_logfile cfC3 defaultMethods = .ok [recC3] ∧
    recC3.bottle = "other_42".data ∧
    (recC3.bottle = "other_43".data → False) :=
  ⟨rfl, rfl, by decide⟩

/-- C3 (amended): the sample identifier is derived from the line after the
run-start line by trying, in order, the bottle pattern (a `bottle\tname\t`
line yields the captured name), the CRM pattern (a `CRM\tname\t` line yields
the captured name), and the exact literal `other`, which yields the synthetic
label `other_<i+1>` where `i` is the run-start line index — i.e. the label
carries the index of the `other` line itself, so a bare `other` line at index
42 yields `other_42`. -/
theorem c3_sample_identifier (i : Nat) (name rest : List Char) (h : '\t' ∉ name) :
    deriveBottle i ("bottle".data ++ '\t' :: (name ++ '\t' :: rest)) = .ok name ∧
    deriveBottle i ("CRM".data ++ '\t' :: (name ++ '\t' :: rest)) = .ok name ∧
    deriveBottle i "other".data = .ok ("other_".data ++ natChars (i + 1)) := by
  refine ⟨?_, ?_, rfl⟩
  · rw [deriveBottle, matchBottle_bottle name rest h]
  · rw [deriveBottle, matchBottle_on_crm, matchCrm_spec name rest h]

/-- C3 (witness): the derivation rules evaluated at the spec's examples
(`STD1`, `BATCH9`, and an `other` line at index 42 following run-start 41). -/
theorem c3_witness :
    ('\t' ∉ "STD1".data) ∧
    deriveBottle 0 ("bottle".data ++ '\t' :: ("STD1".data ++ '\t' :: [])) = .ok "STD1".data ∧
    deriveBottle 0 ("CRM".data ++ '\t' :: ("BATCH9".data ++ '\t' :: [])) = .ok "BATCH9".data ∧
    deriveBottle 41 "other".data = .ok ("other_".data ++ natChars 42) :=
  ⟨by decide,
   (c3_sample_identifier 0 "STD1".data [] (by decide)).1,
   (c3_sample_identifier 0 "BATCH9".data [] (by decide)).2.1,
   (c3_sample_identifier 41 "x".data [] (by decide)).2.2⟩

/-- C4 (counterexample): the sample-name line `"\t\t"` of `cfC4` matches the
bottle pattern with an empty captured name, so the parser returns a record
whose sample identifier is the empty string — the claim that every returned
identifier is non-empty is false on this input. -/
theorem c4_counterexample :
    read_logfile cfC4 defaultMethods = .ok [recC4] ∧ recC4.bottle = [] :=
  ⟨rfl, rfl⟩

/-- C4 (amended): the identifier is always a string but may be empty (a
bottle-pattern line with an empty captured name yields the empty
identifier); when the line after a run-start line matches none of the three
forms, the parser aborts with the assertion error naming logfile line `i+1`
rather than silently skipping or guessing. -/
theorem c4_fails_loudly (methods logf : List (List Char)) (i : Nat)
    (line next : List Char) (mth : List Char) (g : Nat × Nat × Nat × Nat × Nat)
    (hi : logf.get? i = some line)
    (hclean : ∀ k l', k < i → logf.get? k = some l' →
      ∃ v, handleLine methods logf k l' = .ok v)
    (hm : matchMethod methods line = some mth)
    (hdt : findDatetime line = some g)
    (hnext : logf.get? (i + 1) = some next)
    (hb : matchBottle next = none) (hc : matchCrm next = none)
    (ho : next ≠ "other".data) :
    read_logfile logf methods = .error (.bottleAssert (i + 1)) := by
  apply read_logfile_error_at methods logf i line _ hi hclean
  simp only [handleLine, hm, hdt, pyGetLine, hnext, deriveBottle, hb, hc, if_neg ho]

/-- C4 (witness): the fail-loudly behavior evaluated on `cfC4b`, whose
sample-name line `garbage` matches none of the three forms. -/
theorem c4_witness :
    read_logfile cfC4b defaultMethods = .error (.bottleAssert 1) :=
  c4_fails_loudly defaultMethods cfC4b 0 lineStart "garbage".data
    "3C standard".data (1, 2, 3, 4, 5) rfl
    (fun k _ hk _ => absurd hk (Nat.not_lt_zero k))
    rfl rfl rfl rfl rfl (by decide)

/-- C7: for every successfully parsed run, the first row of its Increment
Table is the seeded `(0.0, 0.0, 0.0)` triple, and a run whose first
increment-offset line (four lines after the run start) does not match the
increments pattern keeps exactly the single seeded row. -/
theorem c7_seeded_first_row (methods logf : List (List Char))
    (recs : List RunRecord) (h : read_logfile logf methods = .ok recs) :
    ∀ rec ∈ recs,
      rec.table.minutes.head? = some 0 ∧
      rec.table.counts.head? = some 0 ∧
      rec.table.increments.head? = some 0 ∧
      (∀ l4, logf.get? (rec.logfileline + 4) = some l4 →
        matchIncrements (pyStrip l4) = none → rec.table = seedTable) := by
  intro rec hrec
  obtain ⟨i, line, _, hh⟩ := read_logfile_ok_mem methods logf recs h rec hrec
  obtain ⟨hline, _, h1, h2, h3, h4⟩ := handleLine_ok_some_facts methods logf i line rec hh
  exact ⟨h1, h2, h3, by rw [hline]; exact h4⟩

/-- C7 (witness): the seeding evaluated on `cfC7`, whose single run is
followed by zero matching increment lines and keeps the single seeded row. -/
theorem c7_witness :
    read_logfile cfC7 defaultMethods = .ok [recC7] ∧
    recC7.table.minutes.head? = some 0 ∧ recC7.table.counts.head? = some 0 ∧
    recC7.table.increments.head? = some 0 ∧ recC7.table = seedTable := by
  have hc := c7_seeded_first_row defaultMethods cfC7 [recC7] rfl recC7
    (List.mem_singleton.mpr rfl)
  exact ⟨rfl, hc.1, hc.2.1, hc.2.2.1, hc.2.2.2 lineJunk (by decide) (by decide)⟩

/-- C10: when a run-start line is the last line of the file, or when every
line from offset 4 after a run-start to the end of the file still matches
the increments pattern, `read_logfile` aborts with an out-of-range
line-index error at or past the end of the file instead of returning a
result: the increment loop only ever stops at a non-matching line, never at
end of input. -/
theorem c10_not_total (methods logf : List (List Char)) (i : Nat)
    (line mth : List Char) (g : Nat × Nat × Nat × Nat × Nat)
    (hi : logf.get? i = some line)
    (hm : matchMethod methods line = some mth)
    (hdt : findDatetime line = some g)
    (hclean : ∀ k l', k < i → logf.get? k = some l' →
      ∃ v, handleLine methods logf k l' = .ok v)
    (hcase : logf.get? (i + 1) = none ∨
      ((∃ next bot, logf.get? (i + 1) = some next ∧ deriveBottle i next = .ok bot) ∧
       (∀ k l', i + 4 ≤ k → logf.get? k = some l' →
         ∃ gg, matchIncrements (pyStrip l') = some gg ∧
           gg.1 ≠ [] ∧ gg.2.1 ≠ [] ∧ gg.2.2 ≠ []))) :
    isOOBIndexErrorB logf.length (read_logfile logf methods) = true := by
  have hilen : i < logf.length := by
    rcases List.get?_eq_some.mp hi with ⟨hh, _⟩
    exact hh
  rcases hcase with hnone | ⟨⟨next, bot, hnext, hbot⟩, hall⟩
  · have herr : handleLine methods logf i line = .error (.indexError (i + 1)) := by
      simp only [handleLine, hm, hdt, pyGetLine, hnone]
    rw [read_logfile_error_at methods logf i line _ hi hclean herr]
    have : logf.length ≤ i + 1 := List.get?_eq_none.mp hnone
    simp only [isOOBIndexErrorB, decide_eq_true_eq]
    omega
  · have hscan : incScan i (logf.drop (i + 4)) 4 seedTable =
        .error (.indexError (i + 4 + (logf.drop (i + 4)).length)) := by
      apply incScan_allmatch
      intro lj hlj
      obtain ⟨m, hmem⟩ := List.mem_iff_get?.mp hlj
      rw [List.get?_drop] at hmem
      exact hall (i + 4 + m) lj (by omega) hmem
    have herr : handleLine methods logf i line =
        .error (.indexError (i + 4 + (logf.drop (i + 4)).length)) := by
      simp only [handleLine, hm, hdt, pyGetLine, hnext, hbot, incLoop, hscan]
    rw [read_logfile_error_at methods logf i line _ hi hclean herr]
    have hdl : (logf.drop (i + 4)).length = logf.length - (i + 4) := List.length_drop _ _
    simp only [isOOBIndexErrorB, decide_eq_true_eq]
    omega

/-- C10 (witness): on the one-line file `cfC10`, whose run-start marker is
the last line, the parser raises the out-of-range index error for line 1. -/
theorem c10_witness :
    isOOBIndexErrorB (List.length cfC10) (read_logfile cfC10 defaultMethods) = true :=
  c10_not_total defaultMethods cfC10 0 lineStart "3C standard".data
    (1, 2, 3, 4, 5) rfl rfl rfl
    (fun k _ hk _ => absurd hk (Nat.not_lt_zero k))
    (Or.inl rfl)

/-- C5: the matcher raises the fatal assertion naming the manifest row's
position whenever the row's bottle occurs in the logfile but the number of
run records agreeing on both bottle and analysisdate is not exactly one; a
unique such record yields its position; a bottle absent from the logfile
yields `none` (the `np.nan` no-match) without raising. -/
theorem c5_matcher (x : DbsRow) (logfile : List RunRecord) :
    ((matchIdx x logfile).length ≠ 1 → x.bottle ∈ logfile.map (fun r => r.bottle) →
      logfile2dbs_row x logfile = .error (.matchCountNotOne x.name)) ∧
    (∀ k, matchIdx x logfile = [k] → x.bottle ∈ logfile.map (fun r => r.bottle) →
      logfile2dbs_row x logfile = .ok (some k)) ∧
    (x.bottle ∉ logfile.map (fun r => r.bottle) →
      logfile2dbs_row x logfile = .ok none) := by
  refine ⟨?_, ?_, ?_⟩
  · intro hne hmem
    simp only [logfile2dbs_row, if_pos hmem]
    cases hmi : matchIdx x logfile with
    | nil => simp only [hmi]
    | cons a l =>
      cases l with
      | nil => exact absurd (by rw [hmi]; rfl) hne
      | cons b l2 => simp only [hmi]
  · intro k hk hmem
    simp only [logfile2dbs_row, if_pos hmem, hk]
  · intro hni
    rw [logfile2dbs_row, if_neg hni]

/-- C5 (witness): a unique match, a duplicated match, and an absent bottle,
each evaluated on concrete manifest rows and logfiles. -/
theorem c5_witness :
    logfile2dbs_row ⟨"A".data, (2020, 1, 2, 3, 4), 7⟩ [recC6, recB] = .ok (some 0) ∧
    logfile2dbs_row ⟨"B".data, (2020, 1, 2, 3, 4), 5⟩ [recB, recB] =
      .error (.matchCountNotOne 5) ∧
    logfile2dbs_row ⟨"Z".data, (2020, 1, 2, 3, 4), 9⟩ [recC6, recB] = .ok none :=
  ⟨(c5_matcher ⟨"A".data, (2020, 1, 2, 3, 4), 7⟩ [recC6, recB]).2.1 0
      (by decide) (by decide),
   (c5_matcher ⟨"B".data, (2020, 1, 2, 3, 4), 5⟩ [recB, recB]).1
      (by decide) (by decide),
   (c5_matcher ⟨"Z".data, (2020, 1, 2, 3, 4), 9⟩ [recC6, recB]).2.2 (by decide)⟩

/-- C2 (code bug): a manifest row whose bottle is absent from the logfile
gets the `np.nan` association from the matcher, and `_get_blanks` then
raises the `TypeError` of `logfile.iloc[nan]` on exactly that row instead of
propagating a missing blank value. -/
theorem c2_nomatch_crashes :
    logfile2dbs_row ⟨"Z".data, (2020, 1, 2, 3, 4), 3⟩ [recC6] = .ok none ∧
    get_blanks_row ⟨⟨"Z".data, (2020, 1, 2, 3, 4), 3⟩, none⟩ [recC6] 6 =
      .error .ilocNonInteger :=
  ⟨by decide, by decide⟩

/-- C6: for a manifest row with a valid association and a positive cutoff,
the blank is the arithmetic mean of the `increments` entries over exactly
the Increment Table rows whose `minutes` is at least the cutoff (provided at
least one row qualifies, so that the mean is defined). -/
theorem c6_blank_mean (x : DbsRowM) (logfile : List RunRecord) (usefrom : ℚ)
    (k : Nat) (rec : RunRecord)
    (h0 : usefrom > 0) (h1 : x.logfile_iloc = some k)
    (h2 : logfile.get? k = some rec)
    (h3 : selIncrements rec.table usefrom ≠ []) :
    get_blanks_row x logfile usefrom =
      .ok (some ((selIncrements rec.table usefrom).sum /
        ((selIncrements rec.table usefrom).length : ℚ))) := by
  simp only [get_blanks_row, if_pos h0, h1, h2]
  rw [npMean, if_neg (by simpa using h3)]

/-- C6 (witness): the spec's example — minutes `[0,2,4,6,8,10]`, increments
`[0,1,2,3,4,5]`, cutoff 6 — yields blank `mean([3,4,5]) = 4`. -/
theorem c6_witness :
    (0 : ℚ) < 6 ∧ selIncrements recC6.table 6 = [3, 4, 5] ∧
    get_blanks_row ⟨⟨"A".data, (2020, 1, 2, 3, 4), 0⟩, some 0⟩ [recC6] 6 =
      .ok (some 4) := by
  have hsel : selIncrements recC6.table 6 = [3, 4, 5] := by decide
  have h := c6_blank_mean ⟨⟨"A".data, (2020, 1, 2, 3, 4), 0⟩, some 0⟩ [recC6] 6 0 recC6
    (by norm_num) rfl rfl (by decide)
  refine ⟨by norm_num, hsel, ?_⟩
  rw [h, hsel]
  norm_num

/-! ## Segmenter lemmas -/

theorem tag_foldl_map :
    ∀ (ps : List (Nat × ℚ)) (l : List (ℚ × Option Nat)),
      ps.foldl (fun acc p => acc.map (fun q => if p.2 ≤ q.1 then (q.1, some p.1) else q)) l =
        l.map (fun q =>
          (q.1, ps.foldl (fun acc p => if p.2 ≤ q.1 then some p.1 else acc) q.2)) := by
  intro ps
  induction ps with
  | nil => intro l; simp
  | cons p ps ih =>
    intro l
    simp only [List.foldl_cons]
    rw [ih (l.map (fun q => if p.2 ≤ q.1 then (q.1, some p.1) else q)), List.map_map]
    apply List.map_congr_left
    intro q _
    by_cases h : p.2 ≤ q.1 <;> simp [h]

theorem get_licor_samples_eq_filterMap (licor dbs : List ℚ) :
    get_licor_samples licor dbs =
      licor.filterMap (fun t => (rowTag dbs t).map (fun ix => (t, ix))) := by
  simp only [get_licor_samples, rowTag]
  rw [tag_foldl_map, List.map_map, List.filterMap_map]
  apply List.filterMap_congr
  intro t _
  simp only [Function.comp]
  cases dbs.enum.foldl (fun acc p => if p.2 ≤ t then some p.1 else acc) none <;> rfl

theorem foldl_tag_of_none :
    ∀ (ps : List (Nat × ℚ)) (a : Option Nat) (t : ℚ), (∀ p ∈ ps, ¬ p.2 ≤ t) →
      ps.foldl (fun acc p => if p.2 ≤ t then some p.1 else acc) a = a := by
  intro ps
  induction ps with
  | nil => intro a t _; rfl
  | cons p ps ih =>
    intro a t h
    simp only [List.foldl_cons, if_neg (h p (List.mem_cons_self p ps))]
    exact ih a t (fun q hq => h q (List.mem_cons_of_mem p hq))

theorem rowTag_eq_none (dbs : List ℚ) (t : ℚ) (h : ∀ d ∈ dbs, t < d) :
    rowTag dbs t = none := by
  rw [rowTag]
  apply foldl_tag_of_none
  intro p hp
  have hp' : p ∈ List.enumFrom 0 dbs := hp
  obtain ⟨a, b⟩ := p
  obtain ⟨-, hlt, hv⟩ := List.mem_enumFrom hp'
  simp only [Nat.zero_add, Nat.sub_zero] at hlt hv
  have hmem : b ∈ dbs := hv ▸ List.getElem_mem hlt
  exact not_le.mpr (h b hmem)

theorem rowTag_eq_last_sat (dbs : List ℚ) (t : ℚ) (i : Nat) (hi : i < dbs.length)
    (hle : dbs[i] ≤ t)
    (hafter : ∀ j (hj : j < dbs.length), i < j → ¬ dbs[j] ≤ t) :
    rowTag dbs t = some i := by
  have hdrop : dbs.drop i = dbs[i] :: dbs.drop (i + 1) := List.drop_eq_getElem_cons hi
  have hlen : (dbs.take i).length = i := by rw [List.length_take]; omega
  have hsplit : dbs.enum = (dbs.take i).enum ++
      (i, dbs[i]) :: List.enumFrom (i + 1) (dbs.drop (i + 1)) := by
    calc dbs.enum = List.enumFrom 0 (dbs.take i ++ dbs.drop i) := by
          rw [List.take_append_drop]; rfl
      _ = List.enumFrom 0 (dbs.take i) ++
            List.enumFrom (0 + (dbs.take i).length) (dbs.drop i) :=
          List.enumFrom_append _ _ _
      _ = (dbs.take i).enum ++ (i, dbs[i]) :: List.enumFrom (i + 1) (dbs.drop (i + 1)) := by
          rw [hlen, hdrop]
          simp [List.enumFrom, List.enum]
  rw [rowTag, hsplit, List.foldl_append, List.foldl_cons, if_pos hle]
  apply foldl_tag_of_none
  intro p hp
  obtain ⟨a, b⟩ := p
  obtain ⟨ha1, ha2, hv⟩ := List.mem_enumFrom hp
  have hlen2 : (dbs.drop (i + 1)).length = dbs.length - (i + 1) := List.length_drop _ _
  have hbound : (i + 1) + (a - (i + 1)) < dbs.length := by omega
  have habound : a < dbs.length := by omega
  have hidx : b = dbs[(i + 1) + (a - (i + 1))] := by
    rw [hv]; exact List.getElem_drop dbs
  have hb : b = dbs[a] := by
    rw [hidx]
    congr 1
    omega
  exact hb ▸ hafter a habound (by omega)

/-- C9: for a manifest sorted strictly ascending, the segmenter drops each
gas-analyzer row strictly before the first manifest timestamp, tags each row
that has reached manifest row `i` but none after it with index `i` (the most
recent manifest row it has reached or passed), and in particular tags a row
exactly equal to a manifest timestamp with that manifest row's index. -/
theorem c9_segmenter (licor dbs : List ℚ) (hs : List.Pairwise (· < ·) dbs) :
    (∀ t d0, dbs.head? = some d0 → t < d0 →
      ∀ ix, (t, ix) ∉ get_licor_samples licor dbs) ∧
    (∀ t, t ∈ licor → ∀ i (hi : i < dbs.length), dbs[i] ≤ t →
      (∀ j (hj : j < dbs.length), i < j → t < dbs[j]) →
      (t, i) ∈ get_licor_samples licor dbs) ∧
    (∀ i (hi : i < dbs.length), dbs[i] ∈ licor →
      (dbs[i], i) ∈ get_licor_samples licor dbs) := by
  have hpart2 : ∀ t, t ∈ licor → ∀ i (hi : i < dbs.length), dbs[i] ≤ t →
      (∀ j (hj : j < dbs.length), i < j → t < dbs[j]) →
      (t, i) ∈ get_licor_samples licor dbs := by
    intro t ht i hi hle hafter
    rw [get_licor_samples_eq_filterMap]
    apply List.mem_filterMap.mpr
    refine ⟨t, ht, ?_⟩
    rw [rowTag_eq_last_sat dbs t i hi hle
      (fun j hj hij => not_le.mpr (hafter j hj hij))]
    rfl
  refine ⟨?_, hpart2, ?_⟩
  · intro t d0 hd0 hlt ix hmem
    rw [get_licor_samples_eq_filterMap] at hmem
    obtain ⟨a, -, hfa⟩ := List.mem_filterMap.mp hmem
    cases htag : rowTag dbs a with
    | none => rw [htag] at hfa; cases hfa
    | some ix0 =>
      rw [htag] at hfa
      simp only [Option.map_some', Option.some.injEq, Prod.mk.injEq] at hfa
      obtain ⟨hat, -⟩ := hfa
      subst hat
      have hnone : rowTag dbs a = none := by
        apply rowTag_eq_none
        intro d hd
        cases dbs with
        | nil => cases hd
        | cons d0' tail =>
          have hd0' : d0' = d0 := by simpa using hd0
          subst hd0'
          rcases List.mem_cons.mp hd with rfl | hd
          · exact hlt
          · exact lt_trans hlt ((List.pairwise_cons.mp hs).1 d hd)
      rw [htag] at hnone
      cases hnone
  · intro i hi hmem
    apply hpart2 dbs[i] hmem i hi le_rfl
    intro j hj hij
    exact (List.pairwise_iff_get.mp hs ⟨i, hi⟩ ⟨j, hj⟩ hij)

/-- C9 (witness): with licor `[1,3,4,5]` and manifest `[2,4]`, the row at
timestamp 1 is dropped, 3 is tagged 0, the boundary row 4 is tagged 1, and
5 is tagged 1. -/
theorem c9_witness :
    List.Pairwise (· < ·) dbsC9 ∧
    (((1 : ℚ), 0) ∉ get_licor_samples licorC9 dbsC9) ∧
    ((3 : ℚ), 0) ∈ get_licor_samples licorC9 dbsC9 ∧
    ((4 : ℚ), 1) ∈ get_licor_samples licorC9 dbsC9 ∧
    ((5 : ℚ), 1) ∈ get_licor_samples licorC9 dbsC9 := by
  have hp : List.Pairwise (· < ·) dbsC9 := by decide
  have hc := c9_segmenter licorC9 dbsC9 hp
  refine ⟨hp, ?_, ?_, ?_, ?_⟩
  · exact hc.1 1 2 rfl (by decide) 0
  · exact hc.2.1 3 (by decide) 0 (by decide) (by decide) (by decide)
  · exact hc.2.2 1 (by decide) (by decide)
  · exact hc.2.1 5 (by decide) 1 (by decide) (by decide) (by decide)

/-! ## Resolution-corrector lemmas -/

theorem pyLinspace_length (a b : ℚ) (n : Nat) : (pyLinspace a b n).length = n := by
  rcases n with _ | _ | n <;> simp [pyLinspace]

theorem secondFractions_length (r : Nat) : (secondFractions r).length = r :=
  pyLinspace_length _ _ r

theorem secondFractions_getElem? (r m : Nat) (hm : m < r) :
    (secondFractions r)[m]? = some ((m : ℚ) / (r : ℚ)) := by
  rcases r with _ | _ | r
  · omega
  · have hm0 : m = 0 := by omega
    subst hm0
    show some (0 : ℚ) = some ((0 : ℚ) / (1 : ℚ))
    norm_num
  · show (pyLinspace 0 (1 - 1 / ((r + 2 : Nat) : ℚ)) (r + 2))[m]? = _
    have hmap : pyLinspace 0 (1 - 1 / ((r + 2 : Nat) : ℚ)) (r + 2) =
        (List.range (r + 2)).map
          (fun (j : Nat) =>
            0 + (j : ℚ) * ((1 - 1 / ((r + 2 : Nat) : ℚ)) - 0) / (((r + 2 : Nat) : ℚ) - 1)) :=
      rfl
    rw [hmap, List.getElem?_map, List.getElem?_range hm]
    have hr0 : ((r + 2 : Nat) : ℚ) ≠ 0 := by push_cast; positivity
    have hr1 : ((r + 2 : Nat) : ℚ) - 1 ≠ 0 := by
      push_cast
      intro hc
      have hrge : (0 : ℚ) ≤ (r : ℚ) := Nat.cast_nonneg r
      linarith
    simp only [Option.map_some', Option.some.injEq]
    have key : (1 : ℚ) - 1 / ((r + 2 : Nat) : ℚ) - 0 =
        (((r + 2 : Nat) : ℚ) - 1) / ((r + 2 : Nat) : ℚ) := by
      field_simp
    rw [key, zero_add, mul_div_assoc, div_div,
      mul_comm ((r + 2 : Nat) : ℚ) (((r + 2 : Nat) : ℚ) - 1), ← div_div,
      div_self hr1, mul_one_div]

theorem pySliceLast_length {α : Type} (xs : List α) (s : Nat) (h1 : 1 ≤ s)
    (h2 : s ≤ xs.length) : (pySliceLast xs s).length = s := by
  rw [pySliceLast, if_neg (by omega), List.length_drop]
  omega

theorem npTile_length {α : Type} (xs : List α) (q : Nat) :
    (npTile xs q).length = q * xs.length := by
  induction q with
  | zero => simp [npTile]
  | succ q ih =>
    simp only [npTile, List.length_append, ih]
    ring

theorem npTile_getElem? (xs : List ℚ) (r q k : Nat) (hlen : xs.length = r)
    (hk : k < r * q) : (npTile xs q)[k]? = xs[k % r]? := by
  induction q generalizing k with
  | zero => omega
  | succ q ih =>
    simp only [npTile]
    rcases Nat.lt_or_ge k r with hkr | hkr
    · rw [List.getElem?_append_left (by omega), Nat.mod_eq_of_lt hkr]
    · rw [List.getElem?_append_right (by omega), hlen]
      have hmod : (k - r) % r = k % r := by
        conv_rhs => rw [show k = (k - r) + r by omega]
        rw [Nat.add_mod_right]
      rw [ih (k - r) (by
        have h2 : r * (q + 1) = r * q + r := by ring
        omega), hmod]

/-- C8: in `get_licor_resolution` the inferred rate is
`len(lda) / len(ldu)` (rows sharing an interior timestamp over distinct
interior timestamps), and when the head slice has its nominal length
(`1 ≤ start_iloc ≤ rate`) and the rate divides exactly, the corrected table
adds to each of the `len(lda)` interior rows (starting at `start_iloc`) the
tiled fractional offset `(k mod rate)/rate` seconds, i.e. the sequence
`0, 1/rate, ..., (rate-1)/rate` repeated across the interior rows. -/
theorem c8_resolution (l out : List ℚ) (v0 : ℚ) (s : Nat)
    (hv0 : (ldu l).head? = some v0)
    (hs : (npWhereEq l v0).head? = some s)
    (hs1 : 1 ≤ s) (hs2 : s ≤ licorResolution l)
    (hexact : (lda l).length = licorResolution l * (ldu l).length)
    (hok : get_licor_resolution l = .ok out) :
    licorResolution l = (lda l).length / (ldu l).length ∧
    ∀ k, k < (lda l).length →
      ∃ t, l[s + k]? = some t ∧
        out[s + k]? = some (t +
          ((k % licorResolution l : Nat) : ℚ) / (licorResolution l : ℚ) / 86400) := by
  refine ⟨rfl, ?_⟩
  intro k hk
  have hr0 : licorResolution l ≠ 0 := by omega
  have h0len : ¬ (ldu l).length = 0 := by
    intro hc
    rw [List.length_eq_zero] at hc
    rw [hc] at hv0
    cases hv0
  simp only [get_licor_resolution] at hok
  rw [if_neg h0len, if_neg hr0] at hok
  simp only [hv0, hs] at hok
  obtain ⟨vlast, hvlast⟩ : ∃ v, (ldu l).getLast? = some v := by
    cases hgl : (ldu l).getLast? with
    | none =>
      exact absurd (List.getLast?_eq_none_iff.mp hgl)
        (by intro hc; rw [hc] at hv0; cases hv0)
    | some v => exact ⟨v, rfl⟩
  simp only [hvlast] at hok
  cases hwl : (npWhereEq l vlast).getLast? with
  | none =>
    simp only [hwl] at hok
    cases hok
  | some lastIx =>
    simp only [hwl] at hok
    by_cases hlen : (licorOffsets l s (l.length - (lastIx + 1))).length = l.length
    · rw [if_pos hlen] at hok
      simp only [Except.ok.injEq] at hok
      subst hok
      have hsfLen : (secondFractions (licorResolution l)).length =
          licorResolution l := secondFractions_length _
      have hstartLen :
          (pySliceLast (secondFractions (licorResolution l)) s).length = s :=
        pySliceLast_length _ s hs1 (by omega)
      have htileLen : (npTile (secondFractions (licorResolution l))
          (ldu l).length).length = (ldu l).length * licorResolution l := by
        rw [npTile_length, hsfLen]
      have hoffLen : (licorOffsets l s (l.length - (lastIx + 1))).length =
          s + (ldu l).length * licorResolution l +
            ((secondFractions (licorResolution l)).take
              (l.length - (lastIx + 1))).length := by
        simp [licorOffsets, hstartLen, htileLen]
        omega
      have hkl : s + k < l.length := by
        rw [← hlen, hoffLen]
        have : k < (ldu l).length * licorResolution l := by
          rw [Nat.mul_comm]; omega
        omega
      have hoff : (licorOffsets l s (l.length - (lastIx + 1)))[s + k]? =
          some (((k % licorResolution l : Nat) : ℚ) / (licorResolution l : ℚ)) := by
        rw [licorOffsets, List.append_assoc,
          List.getElem?_append_right (by omega), hstartLen,
          Nat.add_sub_cancel_left,
          List.getElem?_append_left (by rw [htileLen, Nat.mul_comm]; omega),
          npTile_getElem? _ (licorResolution l) _ k hsfLen (by omega),
          secondFractions_getElem? _ _ (Nat.mod_lt k (by omega))]
      refine ⟨l[s + k], List.getElem?_eq_some.mpr ⟨hkl, rfl⟩, ?_⟩
      rw [List.getElem?_zipWith]
      rw [List.getElem?_eq_some.mpr ⟨hkl, rfl⟩, hoff]
    · rw [if_neg hlen] at hok
      cases hok

/-- C8 (witness): on `licorC8` (10 interior rows sharing 2 distinct
timestamps with 5 rows each) the inferred rate is 5 Hz, and the interior row
at offset `k = 7` past `start_iloc = 1` carries the fractional offset
`(7 mod 5)/5 = 2/5` of a second. -/
theorem c8_witness :
    licorResolution licorC8 = (lda licorC8).length / (ldu licorC8).length ∧
    licorResolution licorC8 = 5 ∧
    ∃ out, get_licor_resolution licorC8 = .ok out ∧
      ∃ t, licorC8[(1 + 7 : Nat)]? = some t ∧
        out[(1 + 7 : Nat)]? = some (t +
          ((7 % licorResolution licorC8 : Nat) : ℚ) / (licorResolution licorC8 : ℚ) / 86400) := by
  obtain ⟨out, hout⟩ : ∃ o, get_licor_resolution licorC8 = .ok o := ⟨_, rfl⟩
  have h := c8_resolution licorC8 out 11 1 (by decide) (by decide) (by decide)
    (by decide) (by decide) hout
  exact ⟨h.1, rfl, out, hout, h.2 7 (by decide)⟩

end Koolstof
